import Mathlib

/-!
# go-commitgen: verification of the commit-message generation pipeline

Shallow embedding of the core pipeline of `riskibarqy/go-commitgen`:
the text utilities (`internal/util`), the commit-message parsing and
assembly chain (`internal/commit/message.go`) and the streaming
aggregation loop of the Ollama client (`internal/ollama/client.go`).

Go strings are embedded as `List Char`: one `Char` per Go rune.  All
string operations in the embedded code are rune-based (slicing only ever
happens at positions of ASCII characters, so byte indices and rune
indices coincide on every path modelled here).
-/

abbrev Str := List Char

namespace CommitGen

/-- Character class of the RE2 pattern `\s` used by `util.CondenseSpaces`
(`[\t\n\f\r ]`). -/
def regexSpace (c : Char) : Bool :=
  c = '\t' || c = '\n' || c = '\x0c' || c = '\r' || c = ' '

/-- `unicode.IsSpace`, the class used by `strings.TrimSpace`: Unicode
White_Space code points. -/
def uSpace (c : Char) : Bool :=
  let n := c.toNat
  (9 ≤ n && n ≤ 13) || n = 32 || n = 0x85 || n = 0xA0 || n = 0x1680 ||
    (0x2000 ≤ n && n ≤ 0x200A) || n = 0x2028 || n = 0x2029 ||
    n = 0x202F || n = 0x205F || n = 0x3000

/-- `strings.TrimSpace`: drop leading and trailing Unicode white space. -/
def trimSpace (s : Str) : Str :=
  ((s.dropWhile uSpace).reverse.dropWhile uSpace).reverse

/-- Worker for `CondenseSpaces`: the flag records whether the previous
character was part of a `\s` run already replaced by a single `' '`. -/
def condenseAux : Bool → Str → Str
  | _, [] => []
  | inRun, c :: rest =>
    if regexSpace c then
      if inRun then condenseAux true rest else ' ' :: condenseAux true rest
    else c :: condenseAux false rest

/-- `util.CondenseSpaces`: replace every maximal run of `\s` characters
by a single space (RE2 `\s+` → `" "`). -/
def CondenseSpaces (s : Str) : Str := condenseAux false s

/-- `util.TruncateShorten`: trim to at most `n` runes, appending an
ellipsis when trimmed.  `n` is a Go `int`, embedded as `Int`. -/
def TruncateShorten (s : Str) (n : Int) : Str :=
  if n ≤ 0 then []
  else if (s.length : Int) ≤ n then s
  else s.take (n.toNat - 1) ++ ['…']

/-- `strings.ReplaceAll(s, "\r\n", "\n")`: left-to-right, non-overlapping. -/
def replaceCRLF : Str → Str
  | '\r' :: '\n' :: rest => '\n' :: replaceCRLF rest
  | c :: rest => c :: replaceCRLF rest
  | [] => []

/-- Worker for `strings.Split(s, "\n")`: first piece and remaining pieces. -/
def splitLinesAux : Str → Str × List Str
  | [] => ([], [])
  | c :: rest =>
    if c = '\n' then ([], (splitLinesAux rest).1 :: (splitLinesAux rest).2)
    else (c :: (splitLinesAux rest).1, (splitLinesAux rest).2)

/-- `strings.Split(s, "\n")`: always `count('\n') + 1` pieces. -/
def splitLines (s : Str) : List Str :=
  (splitLinesAux s).1 :: (splitLinesAux s).2

/-- `strings.Join(lines, "\n")`. -/
def joinLines : List Str → Str
  | [] => []
  | [l] => l
  | l :: ls => l ++ '\n' :: joinLines ls

/-- `util.TrimLines`: normalise CRLF, split on newlines, trim each line,
drop the empty ones; `nil` for the empty string. -/
def TrimLines (s : Str) : List Str :=
  if s = [] then []
  else ((splitLines (replaceCRLF s)).map trimSpace).filter (· ≠ [])

/-- `unicode.ToLower` applied rune-wise (`strings.ToLower`).  `Char.toLower`
coincides with it on the ASCII range, which covers every comparison the
properties below depend on (all table keys and keywords are ASCII). -/
def goToLower (s : Str) : Str := s.map Char.toLower

/-- `internal/commit.Parts`: the structured information returned by the model. -/
structure Parts where
  commitType : Str
  description : Str
  summary : Str
  body : Str
deriving DecidableEq, Repr

/-- `internal/commit.Message`: final headline and body. -/
structure Message where
  Headline : Str
  Body : Str
deriving DecidableEq, Repr

/-- The error cases of `commit.ParseParts` (`errors.New` values and the
`json.Unmarshal` failure). -/
inductive ParseError where
  | emptyResponse
  | missingJSONObject
  | decodeError
deriving DecidableEq, Repr

/-- The `allowedCommitTypes` map of `internal/commit/message.go`, in source
literal order.  Go iterates this map in an unspecified order; claim C10
below shows the result does not depend on the order. -/
def allowedCommitTypes : List (Str × Str) :=
  [("feat".data, "feat".data), ("feature".data, "feat".data),
   ("fix".data, "fix".data), ("bugfix".data, "fix".data),
   ("perf".data, "perf".data), ("refactor".data, "refactor".data),
   ("docs".data, "docs".data), ("doc".data, "docs".data),
   ("test".data, "test".data), ("tests".data, "test".data),
   ("build".data, "build".data), ("chore".data, "chore".data),
   ("ci".data, "ci".data)]

/-- The ordered `commitKeywords` slice of `internal/commit/message.go`. -/
def commitKeywords : List Str :=
  ["fix".data, "feat".data, "perf".data, "refactor".data, "docs".data,
   "test".data, "build".data, "ci".data]

/-- The canonical commit types (the values of `allowedCommitTypes`). -/
def canonicalTypes : List Str :=
  ["feat".data, "fix".data, "perf".data, "refactor".data, "docs".data,
   "test".data, "build".data, "chore".data, "ci".data]

/-- `strings.Trim(candidate, "[]")`: strip leading and trailing brackets. -/
def trimBrackets (s : Str) : Str :=
  let cut : Char → Bool := fun c => c = '[' || c = ']'
  ((s.dropWhile cut).reverse.dropWhile cut).reverse

/-- The candidate token `normaliseCommitType` computes before any lookup:
lower-cased, trimmed, brackets stripped. -/
def canonicalToken (t : Str) : Str :=
  trimBrackets (goToLower (trimSpace t))

/-- `commit.normaliseCommitType`, parameterised by the enumeration order of
the `allowedCommitTypes` map used in its prefix-match loop (Go map
iteration order is unspecified). -/
def normaliseCommitTypeWith (table : List (Str × Str)) (t : Str) : Str :=
  let candidate := canonicalToken t
  if candidate = [] then "chore".data
  else
    match table.lookup candidate with
    | some v => v
    | none =>
      match table.find? (fun p => decide (p.1 <+: candidate)) with
      | some p => p.2
      | none => "chore".data

/-- `commit.normaliseCommitType` at the source literal order. -/
def normaliseCommitType (t : Str) : Str :=
  normaliseCommitTypeWith allowedCommitTypes t

/-- `strings.Contains(hay, needle)`: substring containment. -/
def goContains (hay needle : Str) : Bool := decide (needle <:+: hay)

/-- The loop of `commit.detectCommitType` over the keyword slice. -/
def detectLoop (lower : Str) : List Str → Str
  | [] => "chore".data
  | k :: ks => if goContains lower k then normaliseCommitType k else detectLoop lower ks

/-- `commit.detectCommitType`: scan the lower-cased raw text for the
keywords, in slice order. -/
def detectCommitType (raw : Str) : Str :=
  detectLoop (goToLower raw) commitKeywords

/-- `strings.TrimRight(s, ".")`: drop every trailing period. -/
def trimRightDots (s : Str) : Str :=
  (s.reverse.dropWhile (· = '.')).reverse

/-- `commit.sanitizeDescription`: condense, trim, cap at 72 runes, strip
trailing periods. -/
def sanitizeDescription (s : Str) : Str :=
  if CondenseSpaces (trimSpace s) = [] then []
  else
    trimRightDots (if 72 < (CondenseSpaces (trimSpace s)).length
      then TruncateShorten (CondenseSpaces (trimSpace s)) 72
      else CondenseSpaces (trimSpace s))

/-- `commit.sanitizeSummary`: condense, trim, cap at 100 runes. -/
def sanitizeSummary (s : Str) : Str :=
  if CondenseSpaces (trimSpace s) = [] then []
  else if 100 < (CondenseSpaces (trimSpace s)).length
    then TruncateShorten (CondenseSpaces (trimSpace s)) 100
    else CondenseSpaces (trimSpace s)

/-- Per-line step of `commit.sanitizeBody`: condense, cap at 300 runes. -/
def sanitizeBodyLine (line : Str) : Str :=
  let line := CondenseSpaces line
  if 300 < line.length then TruncateShorten line 300 else line

/-- `commit.sanitizeBody`: trim, fall back to `summary` when empty, clean
the lines, cap each line at 300 runes, rejoin with newlines. -/
def sanitizeBody (body summary : Str) : Str :=
  let body := trimSpace body
  let body := if body = [] then summary else body
  let lines := TrimLines body
  if lines = [] then []
  else joinLines (lines.map sanitizeBodyLine)

/-- `commit.normaliseParts`: field order as in the source — the body is
sanitised against the already-sanitised summary. -/
def normaliseParts (p : Parts) : Parts :=
  { commitType := normaliseCommitType p.commitType
    description := sanitizeDescription p.description
    summary := sanitizeSummary p.summary
    body := sanitizeBody p.body (sanitizeSummary p.summary) }

/-- Index of the first occurrence of `c` in `s` (`strings.Index` for a
one-character ASCII needle; byte and rune positions coincide). -/
def firstIdxOf (c : Char) (s : Str) : Option Nat :=
  s.findIdx? (· = c)

/-- Index of the last occurrence of `c` in `s` (`strings.LastIndex`). -/
def lastIdxOf (c : Char) (s : Str) : Option Nat :=
  (s.reverse.findIdx? (· = c)).map (fun k => s.length - 1 - k)

/-- The `raw[start : end+1]` slice of `commit.ParseParts`: the substring
from the first `{` to the last `}`, `none` when absent or out of order. -/
def extractJSONSpan (s : Str) : Option Str :=
  match firstIdxOf '{' s, lastIdxOf '}' s with
  | some i, some j => if i ≤ j then some ((s.drop i).take (j - i + 1)) else none
  | _, _ => none

/-- `commit.ParseParts`.  The call to `json.Unmarshal` (an external
library) is the `decode` parameter: `none` models a decode error, `some p`
the four string fields it fills in (missing fields decode to `""`). -/
def ParseParts (decode : Str → Option Parts) (raw : Str) :
    Except ParseError Parts :=
  let raw := trimSpace raw
  if raw = [] then .error .emptyResponse
  else
    match extractJSONSpan raw with
    | none => .error .missingJSONObject
    | some core =>
      match decode core with
      | none => .error .decodeError
      | some p => .ok (normaliseParts p)

/-- `commit.FallbackParts`: build usable Parts from an arbitrary string. -/
def FallbackParts (raw : Str) : Parts :=
  let clean :=
    let c := sanitizeDescription raw
    if c = [] then "update project files".data else c
  let summary :=
    let s := sanitizeSummary raw
    if s = [] then TruncateShorten clean 100 else s
  { commitType := detectCommitType raw
    description := clean
    summary := summary
    body := sanitizeBody raw summary }

/-- One or more ASCII letters, in the sense of the `[A-Za-z]` class. -/
def isAsciiLetter (c : Char) : Bool :=
  ('A' ≤ c && c ≤ 'Z') || ('a' ≤ c && c ≤ 'z')

/-- The `\d` class, `[0-9]`. -/
def isAsciiDigit (c : Char) : Bool := '0' ≤ c && c ≤ '9'

/-- `ticketPattern.FindStringSubmatch` for `^([A-Za-z]+-\d+)`: the maximal
leading letter run, a hyphen, the maximal following digit run. -/
def ticketMatch (s : Str) : Option Str :=
  if s.takeWhile isAsciiLetter = [] then none
  else
    match s.drop (s.takeWhile isAsciiLetter).length with
    | '-' :: rest =>
      if rest.takeWhile isAsciiDigit = [] then none
      else some (s.takeWhile isAsciiLetter ++ '-' :: rest.takeWhile isAsciiDigit)
    | _ => none

/-- The `strings.LastIndex(branch, "/")` step of `commit.extractTicket`:
keep the segment after the last `/` when it is non-empty. -/
def afterLastSlash (s : Str) : Str :=
  match lastIdxOf '/' s with
  | none => s
  | some i => if i < s.length - 1 then s.drop (i + 1) else s

/-- `commit.extractTicket`. -/
def extractTicket (branch : Str) : Str :=
  if CondenseSpaces (trimSpace branch) = [] then "unknown".data
  else
    match ticketMatch (afterLastSlash (CondenseSpaces (trimSpace branch))) with
    | some t => t
    | none => afterLastSlash (CondenseSpaces (trimSpace branch))

/-- The resolved description of `commit.BuildMessage`: sanitised, then
defaulted to the sanitised summary, then to the literal phrase. -/
def resolvedDescription (parts : Parts) : Str :=
  if sanitizeDescription parts.description = [] then
    if sanitizeSummary parts.summary ≠ [] then sanitizeSummary parts.summary
    else "update project files".data
  else sanitizeDescription parts.description

/-- `commit.BuildMessage`. -/
def BuildMessage (branch : Str) (parts : Parts) : Message :=
  let ticket := extractTicket branch
  let commitType := normaliseCommitType parts.commitType
  let summary := sanitizeSummary parts.summary
  let description := resolvedDescription parts
  let summary := if summary = [] then TruncateShorten description 100 else summary
  let body := sanitizeBody parts.body summary
  let headline :=
    trimSpace (ticket ++ ' ' :: '[' :: (commitType ++ ']' :: ' ' :: description))
  { Headline := headline, Body := body }

/-- One line of the streamed `/api/generate` response body, as seen by the
scanner loop of `ollama.Client.Generate`: either it unmarshals into a
`Chunk {response, done}` or `json.Unmarshal` fails for it. -/
inductive ScanLine where
  | decoded (response : Str) (done : Bool)
  | invalid
deriving DecidableEq, Repr

/-- The scanner loop of `ollama.Client.Generate` (client.go): `out` is the
`strings.Builder` accumulator; a line that fails to decode is skipped
(`continue`); the loop breaks right after appending a `done` chunk. -/
def generateLoop : List ScanLine → Str → Str
  | [], out => out
  | .invalid :: rest, out => generateLoop rest out
  | .decoded r d :: rest, out =>
    if d then out ++ r else generateLoop rest (out ++ r)

/-- The string `ollama.Client.Generate` aggregates from the response body
lines (the builder contents when the loop finishes; `Generate` then
returns it trimmed). -/
def generateAggregate (lines : List ScanLine) : Str :=
  generateLoop lines []

/-- Spec-side: the response lines up to and including the first decoded
record whose done flag is set (all of them when there is none). -/
def uptoFirstDone : List ScanLine → List ScanLine
  | [] => []
  | .decoded r true :: _ => [.decoded r true]
  | l :: rest => l :: uptoFirstDone rest

/-- Spec-side: the `response` fields of the lines that decode. -/
def responsesOf (lines : List ScanLine) : List Str :=
  lines.filterMap fun
    | .decoded r _ => some r
    | .invalid => none

/-- Spec-side aggregation, following the claim's words: the concatenation,
in arrival order, of the `response` fields of the decodable lines, taken
up to and including the first record whose done flag is true. -/
def specAggregate (lines : List ScanLine) : Str :=
  (responsesOf (uptoFirstDone lines)).flatten

/-! ## Concrete inputs used by counterexamples and witnesses -/

/-- A raw model response whose JSON object carries an empty description. -/
def c1raw : Str :=
  "\x7b\"commit_type\":\"feat\",\"description\":\"\",\"summary\":\"ok\",\"body\":\"b\"\x7d".data

/-- What `json.Unmarshal` produces for the object embedded in `c1raw`. -/
def c1decode : Str → Option Parts :=
  fun _ => some ⟨"feat".data, [], "ok".data, "b".data⟩

/-- The value `ParseParts` returns for `c1raw`: its description is empty. -/
def c1parts : Parts := ⟨"feat".data, [], "ok".data, "b".data⟩

/-- A raw model response whose body holds two 300-rune lines separated by
an escaped newline. -/
def c2raw : Str :=
  "\x7b\"commit_type\":\"\",\"description\":\"d\",\"summary\":\"\",\"body\":\"".data
    ++ List.replicate 300 'a' ++ '\\' :: 'n' :: List.replicate 300 'b'
    ++ "\"\x7d".data

/-- What `json.Unmarshal` produces for the object embedded in `c2raw`
(the `\n` escape decodes to a newline character). -/
def c2decode : Str → Option Parts :=
  fun _ => some ⟨[], "d".data, [],
    List.replicate 300 'a' ++ '\n' :: List.replicate 300 'b'⟩

/-- The value `ParseParts` returns for `c2raw`: its body joins two
300-rune lines, 601 runes in total. -/
def c2parts : Parts :=
  ⟨"chore".data, "d".data, [],
    List.replicate 300 'a' ++ '\n' :: List.replicate 300 'b'⟩

/-- A small well-formed decode result used as a witness input. -/
def c2wdecode : Str → Option Parts :=
  fun _ => some ⟨[], "d".data, [], "b".data⟩

/-- A minimal raw response containing a JSON object span. -/
def c2wraw : Str := "\x7b\x7d".data

/-- The value `ParseParts` returns for `c2wraw` under `c2wdecode`. -/
def c2wparts : Parts := ⟨"chore".data, "d".data, [], "b".data⟩

/-! ## Helper lemmas about the text utilities -/

lemma truncate_length_le (s : Str) (n : Int) (hn : 0 ≤ n) :
    ((TruncateShorten s n).length : Int) ≤ n := by
  unfold TruncateShorten
  by_cases h0 : n ≤ 0
  · rw [if_pos h0]
    simpa using hn
  · rw [if_neg h0]
    by_cases h1 : (s.length : Int) ≤ n
    · rwa [if_pos h1]
    · rw [if_neg h1]
      simp only [List.length_append, List.length_take, List.length_cons,
        List.length_nil]
      omega

lemma truncate_eq_of_le (s : Str) (n : Int) (h : (s.length : Int) ≤ n) :
    TruncateShorten s n = s := by
  unfold TruncateShorten
  by_cases h0 : n ≤ 0
  · have hs : s.length = 0 := by omega
    rw [if_pos h0, List.length_eq_zero.mp hs]
  · rw [if_neg h0, if_pos h]

lemma mem_truncate {c : Char} {s : Str} {n : Int}
    (h : c ∈ TruncateShorten s n) : c ∈ s ∨ c = '…' := by
  unfold TruncateShorten at h
  by_cases h0 : n ≤ 0
  · rw [if_pos h0] at h
    simp at h
  · rw [if_neg h0] at h
    by_cases h1 : (s.length : Int) ≤ n
    · rw [if_pos h1] at h
      exact Or.inl h
    · rw [if_neg h1] at h
      rcases List.mem_append.mp h with h' | h'
      · exact Or.inl (List.take_subset _ _ h')
      · simp at h'
        exact Or.inr h'

lemma condense_length_le (l : Str) : ∀ b, (condenseAux b l).length ≤ l.length := by
  induction l with
  | nil => intro b; simp [condenseAux]
  | cons c rest ih =>
    intro b
    simp only [condenseAux]
    by_cases hc : regexSpace c
    · rw [if_pos hc]
      by_cases hb : b
      · rw [if_pos hb]
        exact (ih true).trans (Nat.le_succ _)
      · rw [if_neg hb]
        simpa using Nat.succ_le_succ (ih true)
    · rw [if_neg hc]
      simpa using Nat.succ_le_succ (ih false)

lemma mem_condense {c : Char} {l : Str} :
    ∀ {b}, c ∈ condenseAux b l → c ∈ l ∨ c = ' ' := by
  induction l with
  | nil => intro b h; simp [condenseAux] at h
  | cons a rest ih =>
    intro b h
    simp only [condenseAux] at h
    by_cases ha : regexSpace a
    · rw [if_pos ha] at h
      by_cases hb : b
      · rw [if_pos hb] at h
        rcases ih h with h' | h'
        · exact Or.inl (List.mem_cons_of_mem _ h')
        · exact Or.inr h'
      · rw [if_neg hb] at h
        rcases List.mem_cons.mp h with h' | h'
        · exact Or.inr h'
        · rcases ih h' with h'' | h''
          · exact Or.inl (List.mem_cons_of_mem _ h'')
          · exact Or.inr h''
    · rw [if_neg ha] at h
      rcases List.mem_cons.mp h with h' | h'
      · exact Or.inl (h' ▸ List.mem_cons_self _ _)
      · rcases ih h' with h'' | h''
        · exact Or.inl (List.mem_cons_of_mem _ h'')
        · exact Or.inr h''

lemma mem_dropWhile_of_not {c : Char} {p : Char → Bool} :
    ∀ {l : Str}, c ∈ l → p c = false → c ∈ l.dropWhile p := by
  intro l
  induction l with
  | nil => intro h _; simp at h
  | cons a t ih =>
    intro h hc
    rcases List.mem_cons.mp h with rfl | h'
    · rw [List.dropWhile_cons, hc]
      simp
    · rw [List.dropWhile_cons]
      split
      · exact ih h' hc
      · exact List.mem_cons_of_mem _ h'

lemma dropWhile_head_false {p : Char → Bool} :
    ∀ {l : Str} {c : Char} {t : Str}, List.dropWhile p l = c :: t → p c = false := by
  intro l
  induction l with
  | nil => intro c t h; simp at h
  | cons a l' ih =>
    intro c t h
    rw [List.dropWhile_cons] at h
    by_cases hpa : p a
    · rw [if_pos hpa] at h
      exact ih h
    · rw [if_neg hpa] at h
      cases h
      simpa using hpa

lemma mem_trimSpace {c : Char} {l : Str} (h : c ∈ trimSpace l) : c ∈ l := by
  unfold trimSpace at h
  rw [List.mem_reverse] at h
  have h1 := (List.dropWhile_sublist (l := (l.dropWhile uSpace).reverse) uSpace).mem h
  rw [List.mem_reverse] at h1
  exact (List.dropWhile_sublist uSpace).mem h1

lemma trimSpace_ne_nil {c : Char} {l : Str} (hc : c ∈ l)
    (hs : uSpace c = false) : trimSpace l ≠ [] := by
  intro h
  unfold trimSpace at h
  rw [List.reverse_eq_nil_iff, List.dropWhile_eq_nil_iff] at h
  have h1 : c ∈ l.dropWhile uSpace := mem_dropWhile_of_not hc hs
  have := h c (List.mem_reverse.mpr h1)
  rw [hs] at this
  exact Bool.false_ne_true this

lemma trimSpace_length_le (l : Str) : (trimSpace l).length ≤ l.length := by
  unfold trimSpace
  rw [List.length_reverse]
  calc ((l.dropWhile uSpace).reverse.dropWhile uSpace).length
      ≤ (l.dropWhile uSpace).reverse.length := (List.dropWhile_sublist _).length_le
    _ = (l.dropWhile uSpace).length := List.length_reverse _
    _ ≤ l.length := (List.dropWhile_sublist _).length_le

/-! ## Helper lemmas about line splitting and joining -/

lemma splitLinesAux_no_newline :
    ∀ {s : Str}, ('\n' ∉ (splitLinesAux s).1) ∧
      ∀ l ∈ (splitLinesAux s).2, '\n' ∉ l := by
  intro s
  induction s with
  | nil => simp [splitLinesAux]
  | cons c rest ih =>
    by_cases hc : c = '\n'
    · subst hc
      simp only [splitLinesAux, if_pos rfl]
      exact ⟨by simp, by
        intro l hl
        rcases List.mem_cons.mp hl with rfl | hl'
        · exact ih.1
        · exact ih.2 l hl'⟩
    · simp only [splitLinesAux, if_neg hc]
      refine ⟨?_, ih.2⟩
      intro h
      rcases List.mem_cons.mp h with h' | h'
      · exact hc h'.symm
      · exact ih.1 h'

lemma splitLinesAux_of_no_newline :
    ∀ {l : Str}, '\n' ∉ l → splitLinesAux l = (l, []) := by
  intro l
  induction l with
  | nil => intro _; rfl
  | cons c rest ih =>
    intro h
    have hc : ¬ c = '\n' := fun hc => h (hc ▸ List.mem_cons_self _ _)
    have hr : '\n' ∉ rest := fun hr => h (List.mem_cons_of_mem _ hr)
    simp [splitLinesAux, if_neg hc, ih hr]

lemma splitLinesAux_append {l t : Str} (h : '\n' ∉ l) :
    splitLinesAux (l ++ '\n' :: t) =
      (l, (splitLinesAux t).1 :: (splitLinesAux t).2) := by
  induction l with
  | nil => simp [splitLinesAux]
  | cons c rest ih =>
    have hc : ¬ c = '\n' := fun hc => h (hc ▸ List.mem_cons_self _ _)
    have hr : '\n' ∉ rest := fun hr => h (List.mem_cons_of_mem _ hr)
    simp [splitLinesAux, if_neg hc, ih hr]

lemma splitLines_joinLines :
    ∀ {ls : List Str}, ls ≠ [] → (∀ l ∈ ls, '\n' ∉ l) →
      splitLines (joinLines ls) = ls := by
  intro ls
  induction ls with
  | nil => intro h _; exact absurd rfl h
  | cons l ls' ih =>
    intro _ hnl
    cases ls' with
    | nil =>
      have : '\n' ∉ l := hnl l (List.mem_cons_self _ _)
      simp [joinLines, splitLines, splitLinesAux_of_no_newline this]
    | cons l₂ ls'' =>
      have hl : '\n' ∉ l := hnl l (List.mem_cons_self _ _)
      have hrest : ∀ x ∈ l₂ :: ls'', '\n' ∉ x :=
        fun x hx => hnl x (List.mem_cons_of_mem _ hx)
      have hjoin : joinLines (l :: l₂ :: ls'') = l ++ '\n' :: joinLines (l₂ :: ls'') := by
        simp [joinLines]
      rw [hjoin]
      unfold splitLines
      rw [splitLinesAux_append hl]
      have := ih (by simp) hrest
      unfold splitLines at this
      rw [this]

lemma mem_TrimLines_no_newline {s : Str} :
    ∀ l ∈ TrimLines s, '\n' ∉ l := by
  intro l hl
  unfold TrimLines at hl
  by_cases hs : s = []
  · rw [if_pos hs] at hl
    simp at hl
  · rw [if_neg hs] at hl
    have hl' := List.mem_of_mem_filter hl
    rcases List.mem_map.mp hl' with ⟨piece, hpiece, rfl⟩
    intro hmem
    have : '\n' ∈ piece := mem_trimSpace hmem
    rcases List.mem_cons.mp hpiece with rfl | h2
    · exact splitLinesAux_no_newline.1 this
    · exact splitLinesAux_no_newline.2 _ h2 this

lemma sanitizeBodyLine_length (l : Str) : (sanitizeBodyLine l).length ≤ 300 := by
  unfold sanitizeBodyLine
  by_cases h : 300 < (CondenseSpaces l).length
  · rw [if_pos h]
    have := truncate_length_le (CondenseSpaces l) 300 (by norm_num)
    exact_mod_cast this
  · rw [if_neg h]
    omega

lemma sanitizeBodyLine_no_newline {l : Str} (h : '\n' ∉ l) :
    '\n' ∉ sanitizeBodyLine l := by
  unfold sanitizeBodyLine
  have hcond : '\n' ∉ CondenseSpaces l := by
    intro hc
    rcases mem_condense hc with h' | h'
    · exact h h'
    · exact absurd h' (by decide)
  by_cases hlen : 300 < (CondenseSpaces l).length
  · rw [if_pos hlen]
    intro hmem
    rcases mem_truncate hmem with h' | h'
    · exact hcond h'
    · exact absurd h' (by decide)
  · rw [if_neg hlen]
    exact hcond

lemma sanitizeBody_line_bound (b s : Str) :
    ∀ l ∈ splitLines (sanitizeBody b s), l.length ≤ 300 := by
  intro l hl
  simp only [sanitizeBody] at hl
  set body := trimSpace b with hbody
  by_cases hlines : TrimLines (if body = [] then s else body) = []
  · rw [hlines, if_pos rfl] at hl
    simp [splitLines, splitLinesAux] at hl
    simp [hl]
  · rw [if_neg hlines] at hl
    set lines := TrimLines (if body = [] then s else body) with hdef
    have hmap_ne : lines.map sanitizeBodyLine ≠ [] := by
      simpa using hlines
    have hmap_nl : ∀ x ∈ lines.map sanitizeBodyLine, '\n' ∉ x := by
      intro x hx
      rcases List.mem_map.mp hx with ⟨y, hy, rfl⟩
      exact sanitizeBodyLine_no_newline (mem_TrimLines_no_newline y hy)
    rw [splitLines_joinLines hmap_ne hmap_nl] at hl
    rcases List.mem_map.mp hl with ⟨y, _, rfl⟩
    exact sanitizeBodyLine_length y

/-! ## Helper lemmas about the commit-type table -/

lemma lookup_mem {l : List (Str × Str)} {k v : Str}
    (h : l.lookup k = some v) : (k, v) ∈ l := by
  induction l with
  | nil => simp [List.lookup] at h
  | cons p t ih =>
    obtain ⟨a, b⟩ := p
    simp only [List.lookup] at h
    cases hka : (k == a) with
    | true =>
      rw [hka] at h
      simp only [Option.some.injEq] at h
      have : k = a := by simpa using hka
      subst this
      subst h
      exact List.mem_cons_self _ _
    | false =>
      rw [hka] at h
      exact List.mem_cons_of_mem _ (ih h)

lemma lookup_of_mem {l : List (Str × Str)} {k v : Str}
    (hnd : (l.map Prod.fst).Nodup) (h : (k, v) ∈ l) : l.lookup k = some v := by
  induction l with
  | nil => simp at h
  | cons p t ih =>
    obtain ⟨a, b⟩ := p
    rw [List.map_cons, List.nodup_cons] at hnd
    rcases List.mem_cons.mp h with heq | hmem
    · rw [Prod.mk.injEq] at heq
      obtain ⟨rfl, rfl⟩ := heq
      simp [List.lookup]
    · have hk : ¬ (k == a) = true := by
        intro hka
        have hka' : k = a := by simpa using hka
        apply hnd.1
        rw [← hka']
        exact List.mem_map.mpr ⟨(k, v), hmem, rfl⟩
      simp only [List.lookup]
      rw [Bool.of_not_eq_true hk]
      exact ih hnd.2 hmem

lemma lookup_eq_none {l : List (Str × Str)} {k : Str} :
    l.lookup k = none ↔ k ∉ l.map Prod.fst := by
  induction l with
  | nil => simp [List.lookup]
  | cons p t ih =>
    obtain ⟨a, b⟩ := p
    simp only [List.lookup, List.map_cons, List.mem_cons]
    cases hka : (k == a) with
    | true =>
      have : k = a := by simpa using hka
      simp [this]
    | false =>
      have : ¬ k = a := by simpa using hka
      simp [this, ih]

lemma lookup_perm {l₁ l₂ : List (Str × Str)} (hp : l₁.Perm l₂)
    (hnd : (l₁.map Prod.fst).Nodup) (k : Str) : l₁.lookup k = l₂.lookup k := by
  have hnd₂ : (l₂.map Prod.fst).Nodup := ((hp.map Prod.fst).nodup_iff).mp hnd
  cases h : l₁.lookup k with
  | some v => exact (lookup_of_mem hnd₂ (hp.mem_iff.mp (lookup_mem h))).symm
  | none =>
    refine (lookup_eq_none.mpr ?_).symm
    intro hk
    exact lookup_eq_none.mp h (((hp.map Prod.fst).mem_iff).mpr hk)

lemma table_keys_nodup : (allowedCommitTypes.map Prod.fst).Nodup := by decide

lemma table_values_canonical : ∀ p ∈ allowedCommitTypes, p.2 ∈ canonicalTypes := by
  decide

/-- Any two table entries whose keys are prefix-comparable carry the same
value (the only comparable key pairs are feat/feature, doc/docs and
test/tests). -/
lemma table_values_consistent : ∀ p ∈ allowedCommitTypes,
    ∀ q ∈ allowedCommitTypes, p.1 <+: q.1 → p.2 = q.2 := by
  decide

lemma take_of_prefix {l c : Str} (h : l <+: c) : c.take l.length = l := by
  obtain ⟨t, rfl⟩ := h
  simp

lemma prefix_of_shorter {p q c : Str} (hp : p <+: c) (hq : q <+: c)
    (hle : p.length ≤ q.length) : p <+: q := by
  have h2 : List.take q.length c = q := take_of_prefix hq
  have key : List.take p.length q = p := by
    rw [← h2, List.take_take, Nat.min_eq_left hle]
    exact take_of_prefix hp
  have hpre : List.take p.length q <+: q := List.take_prefix _ _
  rwa [key] at hpre

lemma prefix_value_unique {c : Str} {p q : Str × Str}
    (hp : p ∈ allowedCommitTypes) (hq : q ∈ allowedCommitTypes)
    (hpc : p.1 <+: c) (hqc : q.1 <+: c) : p.2 = q.2 := by
  rcases le_total p.1.length q.1.length with hle | hle
  · exact table_values_consistent p hp q hq (prefix_of_shorter hpc hqc hle)
  · exact (table_values_consistent q hq p hp (prefix_of_shorter hqc hpc hle)).symm

lemma normalise_mem_canonical (t : Str) :
    normaliseCommitType t ∈ canonicalTypes := by
  unfold normaliseCommitType normaliseCommitTypeWith
  by_cases h0 : canonicalToken t = []
  · rw [if_pos h0]
    decide
  · rw [if_neg h0]
    cases hl : allowedCommitTypes.lookup (canonicalToken t) with
    | some v =>
      exact table_values_canonical _ (lookup_mem hl)
    | none =>
      cases hf : allowedCommitTypes.find?
          (fun p => decide (p.1 <+: canonicalToken t)) with
      | some p => exact table_values_canonical _ (List.mem_of_find?_eq_some hf)
      | none => decide

lemma canonical_fixed : ∀ v ∈ canonicalTypes, normaliseCommitType v = v := by
  decide

/-- C10: `normaliseCommitType` is deterministic in its prefix-matching
step — for every input token, any two enumeration orders of the
`allowedCommitTypes` synonym table (modelled as any two permutations of
the table list) yield the same commit type. -/
theorem normaliseCommitType_order_independent (l₁ l₂ : List (Str × Str))
    (h₁ : l₁.Perm allowedCommitTypes) (h₂ : l₂.Perm allowedCommitTypes)
    (t : Str) : normaliseCommitTypeWith l₁ t = normaliseCommitTypeWith l₂ t := by
  have h12 : l₁.Perm l₂ := h₁.trans h₂.symm
  have hnd₁ : (l₁.map Prod.fst).Nodup :=
    ((h₁.map Prod.fst).nodup_iff).mpr table_keys_nodup
  unfold normaliseCommitTypeWith
  by_cases h0 : canonicalToken t = []
  · rw [if_pos h0, if_pos h0]
  · rw [if_neg h0, if_neg h0]
    rw [← lookup_perm h12 hnd₁ (canonicalToken t)]
    cases hl : l₁.lookup (canonicalToken t) with
    | some v => rfl
    | none =>
      cases hf₁ : l₁.find? (fun p => decide (p.1 <+: canonicalToken t)) with
      | some p₁ =>
        cases hf₂ : l₂.find? (fun p => decide (p.1 <+: canonicalToken t)) with
        | some p₂ =>
          have hm₁ : p₁ ∈ allowedCommitTypes :=
            h₁.mem_iff.mp (List.mem_of_find?_eq_some hf₁)
          have hm₂ : p₂ ∈ allowedCommitTypes :=
            h₂.mem_iff.mp (List.mem_of_find?_eq_some hf₂)
          have hb₁ := List.find?_some hf₁
          have hb₂ := List.find?_some hf₂
          simp only [decide_eq_true_eq] at hb₁ hb₂
          exact prefix_value_unique hm₁ hm₂ hb₁ hb₂
        | none =>
          exfalso
          have hmem : p₁ ∈ l₂ := h12.mem_iff.mp (List.mem_of_find?_eq_some hf₁)
          have hb₁ := List.find?_some hf₁
          exact (List.find?_eq_none.mp hf₂ p₁ hmem) hb₁
      | none =>
        cases hf₂ : l₂.find? (fun p => decide (p.1 <+: canonicalToken t)) with
        | some p₂ =>
          exfalso
          have hmem : p₂ ∈ l₁ := h12.mem_iff.mpr (List.mem_of_find?_eq_some hf₂)
          have hb₂ := List.find?_some hf₂
          exact (List.find?_eq_none.mp hf₁ p₂ hmem) hb₂
        | none => rfl

/-! ## Helper lemmas about the streaming loop -/

lemma uptoFirstDone_invalid (rest : List ScanLine) :
    uptoFirstDone (.invalid :: rest) = .invalid :: uptoFirstDone rest := rfl

lemma uptoFirstDone_done (r : Str) (rest : List ScanLine) :
    uptoFirstDone (.decoded r true :: rest) = [.decoded r true] := rfl

lemma uptoFirstDone_notdone (r : Str) (rest : List ScanLine) :
    uptoFirstDone (.decoded r false :: rest) =
      .decoded r false :: uptoFirstDone rest := rfl

lemma generateLoop_spec :
    ∀ (lines : List ScanLine) (out : Str),
      generateLoop lines out = out ++ specAggregate lines := by
  intro lines
  induction lines with
  | nil =>
    intro out
    simp [generateLoop, specAggregate, uptoFirstDone, responsesOf]
  | cons l rest ih =>
    intro out
    cases l with
    | invalid =>
      rw [show generateLoop (.invalid :: rest) out = generateLoop rest out from rfl,
        ih out]
      simp [specAggregate, uptoFirstDone_invalid, responsesOf]
    | decoded r d =>
      cases d with
      | true =>
        rw [show generateLoop (.decoded r true :: rest) out = out ++ r from rfl]
        simp [specAggregate, uptoFirstDone_done, responsesOf]
      | false =>
        rw [show generateLoop (.decoded r false :: rest) out =
          generateLoop rest (out ++ r) from rfl, ih (out ++ r)]
        simp [specAggregate, uptoFirstDone_notdone, responsesOf]

lemma generateLoop_skip :
    ∀ (pre : List ScanLine) (out : Str) (post : List ScanLine),
      generateLoop (pre ++ .invalid :: post) out = generateLoop (pre ++ post) out := by
  intro pre
  induction pre with
  | nil =>
    intro out post
    rfl
  | cons l pre' ih =>
    intro out post
    cases l with
    | invalid =>
      rw [List.cons_append, List.cons_append,
        show ∀ xs, generateLoop (ScanLine.invalid :: xs) out = generateLoop xs out
          from fun _ => rfl,
        show ∀ xs, generateLoop (ScanLine.invalid :: xs) out = generateLoop xs out
          from fun _ => rfl]
      exact ih out post
    | decoded r d =>
      cases d with
      | true => rfl
      | false =>
        rw [List.cons_append, List.cons_append]
        show generateLoop (pre' ++ ScanLine.invalid :: post) (out ++ r) =
          generateLoop (pre' ++ post) (out ++ r)
        exact ih (out ++ r) post

/-! ## Helper lemmas about keyword detection, tickets and descriptions -/

lemma detectLoop_eq_find? (lower : Str) :
    ∀ ks : List Str, detectLoop lower ks =
      (match ks.find? (fun k => goContains lower k) with
       | some k => normaliseCommitType k
       | none => "chore".data) := by
  intro ks
  induction ks with
  | nil => rfl
  | cons k ks' ih =>
    by_cases h : goContains lower k
    · rw [List.find?_cons_of_pos _ h]
      simp only [detectLoop, if_pos h]
    · rw [List.find?_cons_of_neg _ (by simpa using h)]
      simp only [detectLoop, if_neg h]
      exact ih

lemma ticketMatch_ne_nil {s t : Str} (h : ticketMatch s = some t) : t ≠ [] := by
  unfold ticketMatch at h
  by_cases hl : s.takeWhile isAsciiLetter = []
  · rw [if_pos hl] at h
    exact absurd h (by simp)
  · rw [if_neg hl] at h
    split at h
    · split at h
      · exact absurd h (by simp)
      · rw [Option.some.injEq] at h
        subst h
        simp [List.append_eq_nil]
    · exact absurd h (by simp)

lemma afterLastSlash_ne_nil {s : Str} (h : s ≠ []) : afterLastSlash s ≠ [] := by
  unfold afterLastSlash
  cases hi : lastIdxOf '/' s with
  | none => exact h
  | some i =>
    show (if i < s.length - 1 then s.drop (i + 1) else s) ≠ []
    by_cases hlt : i < s.length - 1
    · rw [if_pos hlt]
      intro hnil
      have hlen := congrArg List.length hnil
      rw [List.length_drop] at hlen
      have hs : s.length ≠ 0 := fun h0 => h (List.length_eq_zero.mp h0)
      simp at hlen
      omega
    · rw [if_neg hlt]
      exact h

lemma extractTicket_ne_nil (branch : Str) : extractTicket branch ≠ [] := by
  unfold extractTicket
  by_cases h0 : CondenseSpaces (trimSpace branch) = []
  · rw [if_pos h0]
    decide
  · rw [if_neg h0]
    cases ht : ticketMatch (afterLastSlash (CondenseSpaces (trimSpace branch))) with
    | some t => exact ticketMatch_ne_nil ht
    | none => exact afterLastSlash_ne_nil h0

lemma resolvedDescription_ne_nil (parts : Parts) :
    resolvedDescription parts ≠ [] := by
  unfold resolvedDescription
  by_cases hd : sanitizeDescription parts.description = []
  · rw [if_pos hd]
    by_cases hs : sanitizeSummary parts.summary ≠ []
    · rwa [if_pos hs]
    · rw [if_neg hs]
      decide
  · rwa [if_neg hd]

lemma trimRightDots_no_dot (s : Str) :
    (trimRightDots s).getLast? ≠ some '.' := by
  unfold trimRightDots
  rw [List.getLast?_reverse]
  cases hdl : s.reverse.dropWhile (· = '.') with
  | nil => simp
  | cons c t =>
    have hc := dropWhile_head_false hdl
    simp only [List.head?_cons, ne_eq, Option.some.injEq]
    intro hcd
    rw [hcd] at hc
    simp at hc

lemma trimRightDots_length_le (s : Str) :
    (trimRightDots s).length ≤ s.length := by
  unfold trimRightDots
  rw [List.length_reverse]
  calc (s.reverse.dropWhile (· = '.')).length
      ≤ s.reverse.length := (List.dropWhile_sublist _).length_le
    _ = s.length := List.length_reverse _

/-! ## Claim theorems -/

set_option maxRecDepth 40000 in
/-- C1: the claim says `ParseParts` fails with a missing-description error
whenever the decoded object's description normalises to empty.  The code
has no such check: on `c1raw`, whose description field is empty,
`ParseParts` returns `ok` with an empty description instead of an error
(the legacy `parseCommitParts` in `main.go` does perform this check). -/
theorem parseParts_accepts_empty_description :
    ParseParts c1decode c1raw = Except.ok c1parts ∧ c1parts.description = [] :=
  ⟨rfl, rfl⟩

set_option maxRecDepth 400000 in
/-- C2 counterexample: an accepted raw input whose returned `Body` joins
two 300-rune lines, so the joined body has 601 runes — the claimed
300-rune cap on the joined body does not hold. -/
theorem parseParts_joined_body_cap_fails :
    ParseParts c2decode c2raw = Except.ok c2parts ∧ 300 < c2parts.body.length := by
  exact ⟨rfl, by decide⟩

/-- C2 (amended): for every raw input `ParseParts` accepts, every line of
the returned `Body` has rune count at most 300; the joined multi-line
body is not capped. -/
theorem parseParts_body_lines_bounded (decode : Str → Option Parts)
    (raw : Str) (p : Parts) (h : ParseParts decode raw = Except.ok p) :
    ((splitLines p.body).all fun l => l.length ≤ 300) = true := by
  rw [List.all_eq_true]
  intro l hl
  simp only [decide_eq_true_eq]
  simp only [ParseParts] at h
  by_cases h0 : trimSpace raw = []
  · rw [if_pos h0] at h
    exact absurd h (by simp)
  · rw [if_neg h0] at h
    cases hspan : extractJSONSpan (trimSpace raw) with
    | none =>
      simp only [hspan] at h
      exact Except.noConfusion h
    | some core =>
      simp only [hspan] at h
      cases hdec : decode core with
      | none =>
        simp only [hdec] at h
        exact Except.noConfusion h
      | some q =>
        simp only [hdec, Except.ok.injEq] at h
        subst h
        exact sanitizeBody_line_bound q.body (sanitizeSummary q.summary) l hl

/-- C2 witness: the line bound evaluated on a concrete accepted input. -/
theorem parseParts_body_lines_bounded_witness :
    ((splitLines c2wparts.body).all fun l => l.length ≤ 300) = true :=
  parseParts_body_lines_bounded c2wdecode c2wraw c2wparts rfl

/-- C3: the string aggregated by the streaming loop of `Generate` equals
the concatenation, in arrival order, of the `response` fields of the
decodable lines up to and including the first `done` record, and a line
that fails to decode never terminates or aborts the aggregation. -/
theorem generate_aggregates_stream (lines : List ScanLine) :
    generateAggregate lines = specAggregate lines ∧
    ∀ (pre post : List ScanLine),
      generateAggregate (pre ++ ScanLine.invalid :: post) =
        generateAggregate (pre ++ post) := by
  constructor
  · have h := generateLoop_spec lines []
    simpa [generateAggregate] using h
  · intro pre post
    exact generateLoop_skip pre [] post

/-- C4: `BuildMessage` always returns a headline equal to the trimmed
concatenation of ticket, bracketed commit type and resolved description
with single spaces in between, the headline is never empty, and the three
resolved components are never empty. -/
theorem buildMessage_headline_spec (branch : Str) (parts : Parts) :
    (BuildMessage branch parts).Headline =
      trimSpace (extractTicket branch ++ ' ' :: '[' ::
        (normaliseCommitType parts.commitType ++ ']' :: ' ' ::
          resolvedDescription parts)) ∧
    (BuildMessage branch parts).Headline ≠ [] ∧
    extractTicket branch ≠ [] ∧
    normaliseCommitType parts.commitType ≠ [] ∧
    resolvedDescription parts ≠ [] := by
  refine ⟨rfl, ?_, extractTicket_ne_nil branch, ?_, resolvedDescription_ne_nil parts⟩
  · show trimSpace (extractTicket branch ++ ' ' :: '[' ::
      (normaliseCommitType parts.commitType ++ ']' :: ' ' ::
        resolvedDescription parts)) ≠ []
    exact trimSpace_ne_nil
      (List.mem_append.mpr (Or.inr (List.mem_cons_of_mem _ (List.mem_cons_self _ _))))
      (by decide)
  · intro h
    have hm := normalise_mem_canonical parts.commitType
    rw [h] at hm
    exact absurd hm (by decide)

/-- C5: `extractTicket` maps `feature/TES-123-login-audit` to `TES-123`,
`main` to `main` and the empty branch to `unknown`. -/
theorem extractTicket_examples :
    extractTicket "feature/TES-123-login-audit".data = "TES-123".data ∧
    extractTicket "main".data = "main".data ∧
    extractTicket [] = "unknown".data := by
  refine ⟨by decide, by decide, by decide⟩

/-- C6 counterexample: for the negative length bound `n = -1` the result
of `TruncateShorten` is the empty string, whose rune count 0 is not at
most `-1`, so the claim's first clause fails for negative `n`. -/
theorem truncateShorten_claim_fails_on_negative :
    ¬ (((TruncateShorten ['a'] (-1)).length : Int) ≤ -1) := by decide

/-- C6 (amended): for `n ≥ 0` the result has rune count at most `n`; for
every `n` the input is returned unmodified whenever its rune count is at
most `n`; and for `n ≥ 1`, when the input is longer than `n`, the result
keeps the first `n - 1` runes and appends a single ellipsis rune (for
`n ≤ 0` the result is simply empty, with no ellipsis). -/
theorem truncateShorten_spec (s : Str) (n : Int) :
    (0 ≤ n → ((TruncateShorten s n).length : Int) ≤ n) ∧
    ((s.length : Int) ≤ n → TruncateShorten s n = s) ∧
    (1 ≤ n → n < (s.length : Int) →
      TruncateShorten s n = s.take (n.toNat - 1) ++ ['…']) := by
  refine ⟨truncate_length_le s n, truncate_eq_of_le s n, ?_⟩
  intro h1 h2
  unfold TruncateShorten
  rw [if_neg (by omega), if_neg (by omega)]

/-- C6 witness: the three clauses evaluated at concrete inputs. -/
theorem truncateShorten_spec_witness :
    ((TruncateShorten ['a', 'b', 'c'] 2).length : Int) ≤ 2 ∧
    TruncateShorten ['a', 'b'] 3 = ['a', 'b'] ∧
    TruncateShorten ['a', 'b', 'c'] 2 = ['a', '…'] :=
  ⟨(truncateShorten_spec ['a', 'b', 'c'] 2).1 (by decide),
   (truncateShorten_spec ['a', 'b'] 3).2.1 (by decide),
   (truncateShorten_spec ['a', 'b', 'c'] 2).2.2 (by decide) (by decide)⟩

/-- C7: `normaliseCommitType` is total — every token resolves to one of
the canonical commit types ("chore" being the default) — and idempotent. -/
theorem normaliseCommitType_total_idempotent (t : Str) :
    normaliseCommitType (normaliseCommitType t) = normaliseCommitType t ∧
    normaliseCommitType t ∈ canonicalTypes :=
  ⟨canonical_fixed _ (normalise_mem_canonical t), normalise_mem_canonical t⟩

/-- C8: `detectCommitType` returns the canonicalisation of the first
keyword, in the fixed order of the keyword list, that occurs in the raw
text compared case-insensitively, and "chore" when none occurs; this is
exactly the commit type `FallbackParts` assigns. -/
theorem detectCommitType_first_keyword (raw : Str) :
    detectCommitType raw =
      (match commitKeywords.find? (fun k => goContains (goToLower raw) k) with
       | some k => normaliseCommitType k
       | none => "chore".data) ∧
    (FallbackParts raw).commitType = detectCommitType raw :=
  ⟨detectLoop_eq_find? (goToLower raw) commitKeywords, rfl⟩

/-- C9: `sanitizeDescription` never returns more than 72 runes and its
result never ends with a period. -/
theorem sanitizeDescription_bounds (s : Str) :
    (sanitizeDescription s).length ≤ 72 ∧
    (sanitizeDescription s).getLast? ≠ some '.' := by
  unfold sanitizeDescription
  by_cases h0 : CondenseSpaces (trimSpace s) = []
  · rw [if_pos h0]
    exact ⟨by simp, by simp⟩
  · rw [if_neg h0]
    refine ⟨(trimRightDots_length_le _).trans ?_, trimRightDots_no_dot _⟩
    by_cases h72 : 72 < (CondenseSpaces (trimSpace s)).length
    · rw [if_pos h72]
      have := truncate_length_le (CondenseSpaces (trimSpace s)) 72 (by decide)
      exact_mod_cast this
    · rw [if_neg h72]
      omega

/-- C10 witness: the reversed table enumeration agrees with the source
order on the token `featx`, whose type is resolved by the prefix loop. -/
theorem normaliseCommitType_order_independent_witness :
    normaliseCommitTypeWith allowedCommitTypes.reverse "featx".data =
      normaliseCommitTypeWith allowedCommitTypes "featx".data :=
  normaliseCommitType_order_independent _ _
    (List.reverse_perm _) (List.Perm.refl _) "featx".data

end CommitGen
